import Mathlib

/-!
Verification of the migration/seed orchestration engine of a small Rust
web-server repository (`src/bin/db_cli.rs`, `src/db/mod.rs`,
`src/primitives/http/request.rs`), as a shallow embedding.

Strings are modelled as lists of characters (`Str`).  Filesystem contents
are modelled as a list of `SqlFile` records (filename plus body); the
database ledger is a `DbState` with one row list per tracking table.
Execution of arbitrary SQL bodies is modelled by a success oracle
`e : Str → Bool` (the engine only observes success or failure of a body).
-/

abbrev Str := List Char

/-- Coerce a string literal to the character-list model. -/
def cs (s : String) : Str := s.data

/-- Model of Rust `str::split(sep)`: splits at every separator, keeping
empty pieces, so that `split '_' "" = [""]` and `split '_' "_" = ["", ""]`. -/
def splitOnChar (sep : Char) : Str → List Str
  | [] => [[]]
  | c :: rest =>
    let r := splitOnChar sep rest
    if c = sep then [] :: r
    else
      match r with
      | h :: t => (c :: h) :: t
      | [] => [[c]]

/-- Fuel-driven worker for `replaceAll`.  One unit of fuel is spent per
step and every step consumes at least one character, so fuel equal to the
length of the input suffices. -/
def replaceAllGo (pat rep : Str) : Nat → Str → Str
  | _, [] => []
  | 0, s => s
  | fuel + 1, c :: rest =>
    if pat ≠ [] ∧ pat.isPrefixOf (c :: rest) then
      rep ++ replaceAllGo pat rep fuel ((c :: rest).drop pat.length)
    else
      c :: replaceAllGo pat rep fuel rest

/-- Model of Rust `str::replace(pat, rep)`: replaces every non-overlapping
occurrence of `pat`, scanning left to right. -/
def replaceAll (pat rep s : Str) : Str :=
  replaceAllGo pat rep s.length s

/-- `parse_id_name_from_file` from `src/bin/db_cli.rs`: split the filename
on `'_'`; fewer than two pieces means skip (`none`); otherwise the id is
the first piece and the name is the rest re-joined with `'_'` with every
occurrence of `"_up.sql"` and then `"_down.sql"` removed. -/
def parse_id_name_from_file (filename : Str) : Option (Str × Str) :=
  match splitOnChar '_' filename with
  | p0 :: p1 :: rest =>
    some (p0,
      replaceAll (cs "_down.sql") []
        (replaceAll (cs "_up.sql") [] (List.intercalate ['_'] (p1 :: rest))))
  | _ => none

example :
    parse_id_name_from_file (cs "1700000000000_add_users_table_up.sql") =
      some (cs "1700000000000", cs "add_users_table") := by decide

example : parse_id_name_from_file (cs "nounderscore.sql") = none := by decide

example :
    parse_id_name_from_file (cs "100_a_up.sql_b_up.sql") =
      some (cs "100", cs "a_b") := by decide

example :
    parse_id_name_from_file (cs "100_up.sql") = some (cs "100", cs "up.sql") := by
  decide

example :
    parse_id_name_from_file (cs "100_weird_down.sql_up.sql") =
      some (cs "100", cs "weird") := by decide

/-! ## Filename ordering and the change-set repository

`list_sql_files` in the source collects the directory entries whose name
ends with the given suffix and sorts the resulting `Vec<PathBuf>`
ascending (all paths share the directory, so this is ascending order of
filename).  Rust's sort is modelled by an insertion sort with the
lexicographic order on characters, which agrees with byte order of paths
for the ASCII filenames the tool generates. -/

/-- Lexicographic order on character lists (Rust path/bytewise order). -/
def charListLe : Str → Str → Bool
  | [], _ => true
  | _ :: _, [] => false
  | a :: as, b :: bs =>
    if a < b then true
    else if b < a then false
    else charListLe as bs

theorem charListLe_total : ∀ a b : Str, charListLe a b = true ∨ charListLe b a = true
  | [], _ => Or.inl rfl
  | _ :: _, [] => Or.inr rfl
  | a :: as, b :: bs => by
    by_cases hab : a < b
    · exact Or.inl (by simp [charListLe, hab])
    · by_cases hba : b < a
      · exact Or.inr (by simp [charListLe, hba, asymm hba])
      · have h := charListLe_total as bs
        rcases h with h | h
        · exact Or.inl (by simp [charListLe, hab, hba, h])
        · exact Or.inr (by simp [charListLe, hab, hba, h])

theorem charListLe_trans :
    ∀ a b c : Str, charListLe a b = true → charListLe b c = true →
      charListLe a c = true
  | [], _, _, _, _ => rfl
  | a :: as, [], _, hab, _ => by simp [charListLe] at hab
  | _ :: _, _ :: _, [], _, hbc => by simp [charListLe] at hbc
  | a :: as, b :: bs, c :: ccs, hab, hbc => by
    rcases lt_trichotomy a b with h1 | h1 | h1
    · rcases lt_trichotomy b c with h2 | h2 | h2
      · simp [charListLe, lt_trans h1 h2]
      · subst h2
        simp [charListLe, h1]
      · simp [charListLe, asymm h2, h2] at hbc
    · subst h1
      have hab' : charListLe as bs = true := by
        simpa [charListLe, lt_irrefl] using hab
      rcases lt_trichotomy a c with h2 | h2 | h2
      · simp [charListLe, h2]
      · subst h2
        have hbc' : charListLe bs ccs = true := by
          simpa [charListLe, lt_irrefl] using hbc
        simpa [charListLe, lt_irrefl] using charListLe_trans as bs ccs hab' hbc'
      · simp [charListLe, asymm h2, h2] at hbc
    · simp [charListLe, asymm h1, h1] at hab

/-- A forward or reverse SQL file: its filename and its body. -/
structure SqlFile where
  filename : Str
  body : Str
deriving DecidableEq

/-- Insert a file into a list sorted ascending by filename. -/
def insertFile (f : SqlFile) : List SqlFile → List SqlFile
  | [] => [f]
  | g :: gs =>
    if charListLe f.filename g.filename then f :: g :: gs
    else g :: insertFile f gs

/-- Sort files ascending by filename (model of `Vec::sort` on the paths). -/
def sortFiles : List SqlFile → List SqlFile
  | [] => []
  | f :: fs => insertFile f (sortFiles fs)

theorem insertFile_perm (f : SqlFile) :
    ∀ l : List SqlFile, (insertFile f l).Perm (f :: l)
  | [] => List.Perm.refl _
  | g :: gs => by
    by_cases h : charListLe f.filename g.filename
    · simp [insertFile, h]
    · simp only [insertFile, h, if_false, if_neg h]
      exact ((insertFile_perm f gs).cons g).trans (List.Perm.swap f g gs)

theorem sortFiles_perm : ∀ l : List SqlFile, (sortFiles l).Perm l
  | [] => List.Perm.refl _
  | f :: fs =>
    (insertFile_perm f (sortFiles fs)).trans ((sortFiles_perm fs).cons f)

/-- The sortedness relation used for file lists. -/
def fileLe (f g : SqlFile) : Prop := charListLe f.filename g.filename = true

theorem insertFile_pairwise (f : SqlFile) (l : List SqlFile)
    (h : l.Pairwise fileLe) : (insertFile f l).Pairwise fileLe := by
  induction l with
  | nil => simp [insertFile, List.pairwise_cons]
  | cons g gs ih =>
    by_cases hle : charListLe f.filename g.filename
    · simp only [insertFile, hle, if_true, if_pos hle]
      refine List.pairwise_cons.mpr ⟨?_, h⟩
      intro x hx
      rcases List.mem_cons.mp hx with hx | hx
      · subst hx
        exact hle
      · have hg := (List.pairwise_cons.mp h).1 x hx
        exact charListLe_trans _ _ _ hle hg
    · simp only [insertFile, hle, if_false, if_neg hle]
      have hgs := (List.pairwise_cons.mp h).2
      refine List.pairwise_cons.mpr ⟨?_, ih hgs⟩
      intro x hx
      have hx' := (insertFile_perm f gs).mem_iff.mp hx
      rcases List.mem_cons.mp hx' with hx' | hx'
      · subst hx'
        have htot := charListLe_total x.filename g.filename
        rcases htot with hc | hc
        · exact absurd hc hle
        · exact hc
      · exact (List.pairwise_cons.mp h).1 x hx'

theorem sortFiles_pairwise : ∀ l : List SqlFile, (sortFiles l).Pairwise fileLe
  | [] => List.Pairwise.nil
  | f :: fs => insertFile_pairwise f (sortFiles fs) (sortFiles_pairwise fs)

/-- `list_sql_files` from `src/bin/db_cli.rs`: keep the files whose name
ends with `sfx`, sorted ascending by filename.  An absent directory is the
empty list of files. -/
def list_sql_files (fs : List SqlFile) (sfx : Str) : List SqlFile :=
  sortFiles (fs.filter (fun f => sfx.isSuffixOf f.filename))

/-! ## Ledger store (`src/db/mod.rs`)

The two tracking tables are modelled as row lists of `(id, name)` pairs.
`INSERT` fails on a duplicate primary key (the ledger's only constraint);
`DELETE ... WHERE id = $1` removes the matching rows and is a no-op when
none match. -/

/-- The persisted ledger: the rows of the two tracking tables. -/
structure DbState where
  migrations : List (Str × Str)
  seeders : List (Str × Str)
deriving DecidableEq

/-- `mark_migration_applied`: `INSERT INTO _migrations (id, name) VALUES
($1, $2)`; fails on a duplicate primary key. -/
def mark_migration_applied (id name : Str) (s : DbState) :
    Except Str DbState :=
  if s.migrations.any (fun row => row.1 = id) then
    Except.error (cs "duplicate key value violates unique constraint")
  else
    Except.ok { s with migrations := s.migrations ++ [(id, name)] }

/-- `mark_seed_applied`: the same insert against `_seeders`. -/
def mark_seed_applied (id name : Str) (s : DbState) : Except Str DbState :=
  if s.seeders.any (fun row => row.1 = id) then
    Except.error (cs "duplicate key value violates unique constraint")
  else
    Except.ok { s with seeders := s.seeders ++ [(id, name)] }

/-- `unmark_migration_applied`: `DELETE FROM _migrations WHERE id = $1`. -/
def unmark_migration_applied (id : Str) (s : DbState) : DbState :=
  { s with migrations := s.migrations.filter (fun row => row.1 ≠ id) }

/-- `unmark_seed_applied`: `DELETE FROM _seeders WHERE id = $1`. -/
def unmark_seed_applied (id : Str) (s : DbState) : DbState :=
  { s with seeders := s.seeders.filter (fun row => row.1 ≠ id) }

/-- The rows of the tracking table selected by `kind`, following the
`if kind == "migrations" { .. } else { .. }` dispatch of the source. -/
def ledgerOf (kind : Str) (s : DbState) : List (Str × Str) :=
  if kind = cs "migrations" then s.migrations else s.seeders

/-- The applied-id read performed at the start of `run_pending` and
`undo_last` (`applied_migration_ids` / `applied_seed_ids`): the `id`
column of the kind's tracking table. -/
def applied_ids (kind : Str) (s : DbState) : List Str :=
  (ledgerOf kind s).map Prod.fst

/-- The `mark_*_applied` dispatch inside the `run_pending` loop. -/
def mark_dispatch (kind id name : Str) (s : DbState) : Except Str DbState :=
  if kind = cs "migrations" then mark_migration_applied id name s
  else mark_seed_applied id name s

/-- The `unmark_*_applied` dispatch inside the `undo_last` loop. -/
def unmark_dispatch (kind id : Str) (s : DbState) : DbState :=
  if kind = cs "migrations" then unmark_migration_applied id s
  else unmark_seed_applied id s

/-! ## Orchestration engine (`run_pending` and `undo_last`)

A run is a fold over the discovered file list.  `e : Str → Bool` is the
success oracle for `execute_sql` on a change-set body.  A `RunOutcome`
records the final ledger state, the filenames whose bodies were executed
(in execution order, the failing one included), and whether the run
aborted with an error. -/

structure RunOutcome where
  state : DbState
  executed : List Str
  err : Bool
deriving DecidableEq

/-- The `for file in files` loop of `run_pending`: skip unparseable
filenames, skip ids already in the applied snapshot, otherwise execute the
body and mark it applied; any failure aborts the run immediately. -/
def apply_loop (kind : Str) (e : Str → Bool) (applied : List Str) :
    List SqlFile → DbState → RunOutcome
  | [], s => ⟨s, [], false⟩
  | f :: rest, s =>
    match parse_id_name_from_file f.filename with
    | none => apply_loop kind e applied rest s
    | some (id, name) =>
      if id ∈ applied then apply_loop kind e applied rest s
      else if e f.body then
        match mark_dispatch kind id name s with
        | Except.ok s' =>
          let r := apply_loop kind e applied rest s'
          ⟨r.state, f.filename :: r.executed, r.err⟩
        | Except.error _ => ⟨s, [f.filename], true⟩
      else ⟨s, [f.filename], true⟩

/-- `run_pending` from `src/bin/db_cli.rs`: read the applied snapshot,
list the `_up.sql` files ascending, and run the apply loop. -/
def run_pending (kind : Str) (e : Str → Bool) (fs : List SqlFile)
    (s : DbState) : RunOutcome :=
  apply_loop kind e (applied_ids kind s) (list_sql_files fs (cs "_up.sql")) s

/-- The `for file in files` loop of `undo_last`: scan in the given order,
skip unparseable filenames and ids not in the applied snapshot; for the
first applied entry execute its body, delete its ledger row and stop. -/
def undo_loop (kind : Str) (e : Str → Bool) (applied : List Str) :
    List SqlFile → DbState → RunOutcome
  | [], s => ⟨s, [], false⟩
  | f :: rest, s =>
    match parse_id_name_from_file f.filename with
    | none => undo_loop kind e applied rest s
    | some (id, _) =>
      if id ∈ applied then
        if e f.body then ⟨unmark_dispatch kind id s, [f.filename], false⟩
        else ⟨s, [f.filename], true⟩
      else undo_loop kind e applied rest s

/-- `undo_last` from `src/bin/db_cli.rs`: read the applied snapshot, list
the `_down.sql` files (already sorted ascending; the second `sort()` in
the source is the identity on them), reverse to descending order, and run
the undo loop. -/
def undo_last (kind : Str) (e : Str → Bool) (fs : List SqlFile)
    (s : DbState) : RunOutcome :=
  undo_loop kind e (applied_ids kind s)
    ((list_sql_files fs (cs "_down.sql")).reverse) s

example :
    run_pending (cs "migrations") (fun _ => true)
      [⟨cs "100_a_up.sql", cs "A"⟩, ⟨cs "100_a_down.sql", cs "revA"⟩]
      ⟨[], []⟩ =
      ⟨⟨[(cs "100", cs "a")], []⟩, [cs "100_a_up.sql"], false⟩ := by decide

example :
    undo_last (cs "migrations") (fun _ => true)
      [⟨cs "100_a_down.sql", cs "revA"⟩, ⟨cs "200_b_down.sql", cs "revB"⟩]
      ⟨[(cs "100", cs "a"), (cs "200", cs "b")], []⟩ =
      ⟨⟨[(cs "100", cs "a")], []⟩, [cs "200_b_down.sql"], false⟩ := by decide

/-! ## The SQL statement texts of the ledger store (`src/db/mod.rs`)

The statement strings are reproduced verbatim so that the table names the
store actually uses can be read off them. -/

def ensure_migrations_tables_sql_1 : String :=
  "CREATE TABLE IF NOT EXISTS _migrations (\n  id TEXT PRIMARY KEY,\n  name TEXT NOT NULL,\n  applied_at TIMESTAMP NOT NULL DEFAULT NOW()\n);"

def ensure_migrations_tables_sql_2 : String :=
  "CREATE TABLE IF NOT EXISTS _seeders (\n  id TEXT PRIMARY KEY,\n  name TEXT NOT NULL,\n  applied_at TIMESTAMP NOT NULL DEFAULT NOW()\n);"

def mark_migration_applied_sql : String :=
  "INSERT INTO _migrations (id, name) VALUES ($1, $2)"

def mark_seed_applied_sql : String :=
  "INSERT INTO _seeders (id, name) VALUES ($1, $2)"

def unmark_migration_applied_sql : String :=
  "DELETE FROM _migrations WHERE id = $1"

def unmark_seed_applied_sql : String :=
  "DELETE FROM _seeders WHERE id = $1"

def applied_migration_ids_sql : String :=
  "SELECT id FROM _migrations"

def applied_seed_ids_sql : String :=
  "SELECT id FROM _seeders"

/-- The table name a SQL statement addresses: the token (up to the next
space, or the end) that follows the given introducing keyword text. -/
def sqlTokenAfter (kw sql : Str) : Option Str :=
  if kw.isPrefixOf sql then
    some ((sql.drop kw.length).takeWhile (fun c => c ≠ ' '))
  else none

/-! ## Row decoding in `applied_migration_ids` / `applied_seed_ids`

`src/db/mod.rs` fetches the rows of the tracking table and collects
`r.try_get::<String, _>("id").ok()` with `filter_map`: a fetch error is
propagated by `?`, while a row whose `id` column fails to decode as text
is silently dropped.  Column values are modelled by the same scalar types
the module's `DbParam` enumerates. -/

inductive DbValue
  | int32 (n : Int)
  | int64 (n : Int)
  | boolean (b : Bool)
  | text (s : Str)
deriving DecidableEq

/-- `r.try_get::<String, _>("id")`: succeeds exactly on text values. -/
def try_get_id : DbValue → Except Str Str
  | DbValue.text s => Except.ok s
  | _ => Except.error (cs "mismatched types")

/-- `applied_migration_ids` over the fetched `id` column values:
`fetch_all` errors propagate; otherwise each row's decode result is
collected with `filter_map (.. .ok())`. -/
def applied_migration_ids (fetched : Except Str (List DbValue)) :
    Except Str (List Str) :=
  match fetched with
  | Except.error e => Except.error e
  | Except.ok rows =>
    Except.ok (rows.filterMap (fun r => (try_get_id r).toOption))

/-! ## CLI dispatch (`main` in `src/bin/db_cli.rs`) -/

inductive CliAction
  | createSqlFile (kind : String)
  | runPendingCmd (kind : String)
  | undoLastCmd (kind : String)
deriving DecidableEq

/-- What one invocation of `main` does before any command handler runs:
either it prints the usage text and the process ends with the given exit
code, or it dispatches to a command handler.  An empty argument list hits
`print_usage(); exit(1)`; an unrecognized command hits the `_` arm, which
prints usage and returns `Ok(())`, so the process exit code is `0`. -/
inductive CliOutcome
  | usage (exitCode : Nat)
  | command (a : CliAction)
deriving DecidableEq

def mainDispatch (args : List String) : CliOutcome :=
  match args with
  | [] => CliOutcome.usage 1
  | cmd :: _ =>
    if cmd = "migration:new" then
      CliOutcome.command (CliAction.createSqlFile "migrations")
    else if cmd = "seed:new" then
      CliOutcome.command (CliAction.createSqlFile "seeders")
    else if cmd = "migrate" then
      CliOutcome.command (CliAction.runPendingCmd "migrations")
    else if cmd = "seed" then
      CliOutcome.command (CliAction.runPendingCmd "seeders")
    else if cmd = "migrate:undo" then
      CliOutcome.command (CliAction.undoLastCmd "migrations")
    else if cmd = "seed:undo" then
      CliOutcome.command (CliAction.undoLastCmd "seeders")
    else CliOutcome.usage 0

/-! ## Request rendering (`Display for Request`,
`src/primitives/http/request.rs`)

Only the fields the `Display` implementation renders from are modelled;
header values are character sequences. -/

structure Request where
  method : Str
  url : Str
  headers : List (Str × Str)
  body : Str

/-- The value masking applied to authorization-like headers: for a value
longer than 4, keep the first half (`split_at(len / 2)`) and replace the
rest with `'*'`; otherwise render `"****"`. -/
def obfuscate_value (value : Str) : Str :=
  let len := value.length
  if len > 4 then
    let half := len / 2
    (value.splitAt half).1 ++ List.replicate (len - half) '*'
  else cs "****"

/-- The header map as rendered: entries whose key lowercases (ASCII) to
`authorization` or `proxy-authorization` have their value masked; all
other entries are kept as they are. -/
def display_headers (headers : List (Str × Str)) : List (Str × Str) :=
  headers.map (fun kv =>
    let keyLower := kv.1.map Char.toLower
    if keyLower = cs "authorization" ∨ keyLower = cs "proxy-authorization"
    then (kv.1, obfuscate_value kv.2)
    else kv)

/-- The data rendered by the `Display` implementation, field by field. -/
structure DisplayedRequest where
  method : Str
  url : Str
  headers : List (Str × Str)
  body : Str
deriving DecidableEq

def display_request (r : Request) : DisplayedRequest :=
  ⟨r.method, r.url, display_headers r.headers, r.body⟩

/-- The masking rule exactly as the claim words it: for a value whose
length exceeds 4, the first `⌊len / 2⌋` characters in clear followed by
`len - ⌊len / 2⌋` asterisks; otherwise four asterisks. -/
def maskPerClaim (value : Str) : Str :=
  if 4 < value.length then
    value.take (value.length / 2) ++
      List.replicate (value.length - value.length / 2) '*'
  else cs "****"

/-! ## Supporting lemmas -/

theorem splitOnChar_no_sep (sep : Char) :
    ∀ s : Str, sep ∉ s → splitOnChar sep s = [s]
  | [], _ => rfl
  | c :: rest, h => by
    have hc : ¬ c = sep := fun hc => h (hc ▸ List.mem_cons_self c rest)
    have hr : sep ∉ rest := fun hm => h (List.mem_cons_of_mem c hm)
    simp [splitOnChar, hc, splitOnChar_no_sep sep rest hr]

theorem ledgerOf_migrations (s : DbState) :
    ledgerOf (cs "migrations") s = s.migrations := by
  simp [ledgerOf]

theorem ledgerOf_seeders (s : DbState) :
    ledgerOf (cs "seeders") s = s.seeders := by
  rw [ledgerOf, if_neg (by decide)]

/-! ## Claim theorems -/

/-- C4: filename parsing takes the text before the first underscore as
the id and the remainder with the up/down suffix stripped as the name;
`1700000000000_add_users_table_up.sql` parses to id `1700000000000` and
name `add_users_table`, and every filename containing no underscore is
skipped (the parse returns nothing) rather than raising an error. -/
theorem parse_filename_id_name :
    parse_id_name_from_file (cs "1700000000000_add_users_table_up.sql") =
      some (cs "1700000000000", cs "add_users_table") ∧
    ∀ filename : Str, '_' ∉ filename →
      parse_id_name_from_file filename = none := by
  refine ⟨by decide, ?_⟩
  intro filename h
  rw [parse_id_name_from_file, splitOnChar_no_sep '_' filename h]

theorem parse_filename_id_name_witness :
    parse_id_name_from_file (cs "nounderscore.sql") = none :=
  parse_filename_id_name.2 (cs "nounderscore.sql") (by decide)

/-- C9: filename parsing removes every occurrence of `_up.sql` and
`_down.sql` anywhere in the name portion, not only a trailing suffix:
`100_a_up.sql_b_up.sql` parses to name `a_b`, an up-file whose name
contains `_down.sql` has that substring removed too, and `100_up.sql` is
not skipped but parses to id `100` with name `up.sql`. -/
theorem parse_filename_removes_all_occurrences :
    parse_id_name_from_file (cs "100_a_up.sql_b_up.sql") =
      some (cs "100", cs "a_b") ∧
    parse_id_name_from_file (cs "100_weird_down.sql_up.sql") =
      some (cs "100", cs "weird") ∧
    parse_id_name_from_file (cs "100_up.sql") =
      some (cs "100", cs "up.sql") := by
  refine ⟨by decide, by decide, by decide⟩

/-- C5 counterexample: the tables the ledger store creates are NOT named
`migrations` and `seeders` — the `CREATE TABLE` statements address other
names. -/
theorem ledger_table_names_counterexample :
    ¬ (sqlTokenAfter (cs "CREATE TABLE IF NOT EXISTS ")
          (cs ensure_migrations_tables_sql_1) = some (cs "migrations") ∧
       sqlTokenAfter (cs "CREATE TABLE IF NOT EXISTS ")
          (cs ensure_migrations_tables_sql_2) = some (cs "seeders")) := by
  decide

/-- C5 amended: the persisted ledger consists of exactly two tables with
the fixed names `_migrations` and `_seeders` (leading underscore): the
schema setup creates tables of those names, the mark operations insert
into them, the applied-id reads select from them and the unmark
operations delete from them, for the Migration and Seed kinds
respectively. -/
theorem ledger_table_names_amended :
    sqlTokenAfter (cs "CREATE TABLE IF NOT EXISTS ")
        (cs ensure_migrations_tables_sql_1) = some (cs "_migrations") ∧
    sqlTokenAfter (cs "CREATE TABLE IF NOT EXISTS ")
        (cs ensure_migrations_tables_sql_2) = some (cs "_seeders") ∧
    sqlTokenAfter (cs "INSERT INTO ")
        (cs mark_migration_applied_sql) = some (cs "_migrations") ∧
    sqlTokenAfter (cs "INSERT INTO ")
        (cs mark_seed_applied_sql) = some (cs "_seeders") ∧
    sqlTokenAfter (cs "SELECT id FROM ")
        (cs applied_migration_ids_sql) = some (cs "_migrations") ∧
    sqlTokenAfter (cs "SELECT id FROM ")
        (cs applied_seed_ids_sql) = some (cs "_seeders") ∧
    sqlTokenAfter (cs "DELETE FROM ")
        (cs unmark_migration_applied_sql) = some (cs "_migrations") ∧
    sqlTokenAfter (cs "DELETE FROM ")
        (cs unmark_seed_applied_sql) = some (cs "_seeders") := by
  decide

/-- C6 counterexample: on a ledger whose `id` column holds a value that
does not decode as text, the applied-id read succeeds while returning
none of the recorded ids. -/
theorem applied_ids_decode_counterexample :
    applied_migration_ids (Except.ok [DbValue.int64 100]) = Except.ok [] ∧
    [DbValue.int64 100] ≠ [] := by
  refine ⟨rfl, by decide⟩

/-- C6 amended: `appliedIds` propagates fetch errors unchanged, and on
success returns exactly the ids that decode as text — every row whose
`id` decodes is included, but rows whose `id` fails to decode are
silently dropped while the call still succeeds. -/
theorem applied_ids_decode_amended (fetched : Except Str (List DbValue)) :
    (∀ msg, fetched = Except.error msg →
      applied_migration_ids fetched = Except.error msg) ∧
    (∀ rows, fetched = Except.ok rows →
      applied_migration_ids fetched =
        Except.ok (rows.filterMap (fun r => (try_get_id r).toOption)) ∧
      ∀ v ∈ rows, ∀ idv, try_get_id v = Except.ok idv →
        idv ∈ rows.filterMap (fun r => (try_get_id r).toOption)) := by
  constructor
  · intro msg h
    subst h
    rfl
  · intro rows h
    subst h
    refine ⟨rfl, ?_⟩
    intro v hv idv hid
    exact List.mem_filterMap.mpr ⟨v, hv, by simp [hid, Except.toOption]⟩

theorem applied_ids_decode_amended_witness :
    applied_migration_ids (Except.ok [DbValue.text (cs "100")]) =
      Except.ok [cs "100"] := by
  have h :=
    ((applied_ids_decode_amended
        (Except.ok [DbValue.text (cs "100")])).2 [DbValue.text (cs "100")]
      rfl).1
  exact h.trans rfl

/-- C7 counterexample: `bogus` is not one of the six recognized commands,
yet the program prints the usage text and the process ends with exit
status 0 (the `_` arm of `main` returns `Ok(())`), not a failure
status. -/
theorem usage_exit_counterexample :
    mainDispatch ["bogus"] = CliOutcome.usage 0 ∧
    "bogus" ∉ ["migration:new", "seed:new", "migrate", "seed",
      "migrate:undo", "seed:undo"] := by
  refine ⟨rfl, by decide⟩

/-- C7 amended: an invocation with no arguments prints usage and exits
with failure status 1, while an invocation whose first argument is not
one of the six recognized commands prints usage and exits with success
status 0. -/
theorem usage_exit_amended (args : List String) :
    (args = [] → mainDispatch args = CliOutcome.usage 1) ∧
    (∀ cmd rest, args = cmd :: rest →
      cmd ∉ ["migration:new", "seed:new", "migrate", "seed",
        "migrate:undo", "seed:undo"] →
      mainDispatch args = CliOutcome.usage 0) := by
  constructor
  · intro h
    subst h
    rfl
  · intro cmd rest h hmem
    subst h
    simp only [List.mem_cons, List.mem_singleton, not_or] at hmem
    obtain ⟨h1, h2, h3, h4, h5, h6⟩ := hmem
    simp [mainDispatch, h1, h2, h3, h4, h5, h6]

theorem usage_exit_amended_witness :
    mainDispatch ["zzz"] = CliOutcome.usage 0 :=
  (usage_exit_amended ["zzz"]).2 "zzz" [] rfl (by decide)

/-- C8: the two kinds are isolated namespaces — marking a migration
applied leaves the seeders table's rows and applied-id set unchanged and
vice versa, and unmarking likewise touches only its own kind's table. -/
theorem namespace_isolation (id name : Str) (s : DbState) :
    (∀ s', mark_migration_applied id name s = Except.ok s' →
      s'.seeders = s.seeders ∧
      applied_ids (cs "seeders") s' = applied_ids (cs "seeders") s) ∧
    (∀ s', mark_seed_applied id name s = Except.ok s' →
      s'.migrations = s.migrations ∧
      applied_ids (cs "migrations") s' = applied_ids (cs "migrations") s) ∧
    (unmark_migration_applied id s).seeders = s.seeders ∧
    (unmark_seed_applied id s).migrations = s.migrations := by
  refine ⟨?_, ?_, rfl, rfl⟩
  · intro s' h
    unfold mark_migration_applied at h
    split at h
    · cases h
    · injection h with h
      subst h
      exact ⟨rfl, by simp [applied_ids, ledgerOf_seeders]⟩
  · intro s' h
    unfold mark_seed_applied at h
    split at h
    · cases h
    · injection h with h
      subst h
      exact ⟨rfl, by simp [applied_ids, ledgerOf_migrations]⟩

theorem namespace_isolation_witness :
    applied_ids (cs "seeders") ⟨[(cs "100", cs "n")], []⟩ =
      applied_ids (cs "seeders") ⟨[], []⟩ :=
  ((namespace_isolation (cs "100") (cs "n") ⟨[], []⟩).1
    ⟨[(cs "100", cs "n")], []⟩ rfl).2

theorem obfuscate_value_eq_maskPerClaim : obfuscate_value = maskPerClaim := by
  funext v
  simp [obfuscate_value, maskPerClaim, List.splitAt_eq]

/-- C10: rendering a request masks exactly the headers whose key
case-insensitively equals `authorization` or `proxy-authorization` — for
a value longer than 4 the first `⌊len / 2⌋` characters stay in clear and
the remaining `len - ⌊len / 2⌋` become asterisks, otherwise the value
renders as `****` — while every other header, the method, the url and
the body are rendered unmodified. -/
theorem display_request_masks_auth (r : Request) :
    display_request r =
      ⟨r.method, r.url,
        r.headers.map (fun kv =>
          if kv.1.map Char.toLower = cs "authorization" ∨
             kv.1.map Char.toLower = cs "proxy-authorization"
          then (kv.1, maskPerClaim kv.2)
          else kv),
        r.body⟩ := by
  simp [display_request, display_headers, obfuscate_value_eq_maskPerClaim]

/-! ## Single-step undo (C1) -/

/-- The first entry of `files` (a spec-side characterization: the files
are already in the scan order) whose parsed id is in the applied set. -/
def undoTarget (applied : List Str) (files : List SqlFile) : Option SqlFile :=
  files.find? (fun f =>
    match parse_id_name_from_file f.filename with
    | some (id, _) => decide (id ∈ applied)
    | none => false)

theorem undo_loop_target_none (kind : Str) (e : Str → Bool)
    (applied : List Str) :
    ∀ files s, undoTarget applied files = none →
      undo_loop kind e applied files s = ⟨s, [], false⟩
  | [], s, _ => rfl
  | f :: rest, s, h => by
    rw [undoTarget, List.find?_cons] at h
    cases hp : parse_id_name_from_file f.filename with
    | none =>
      rw [hp] at h
      simp only [undo_loop, hp]
      exact undo_loop_target_none kind e applied rest s h
    | some v =>
      obtain ⟨id, name⟩ := v
      rw [hp] at h
      by_cases hmem : id ∈ applied
      · simp [hmem] at h
      · simp only [decide_eq_false hmem] at h
        simp only [undo_loop, hp]
        rw [if_neg hmem]
        exact undo_loop_target_none kind e applied rest s h

theorem undo_loop_target_some (kind : Str) (e : Str → Bool)
    (applied : List Str) :
    ∀ files s f, undoTarget applied files = some f →
      ∀ id name, parse_id_name_from_file f.filename = some (id, name) →
        (e f.body = true →
          undo_loop kind e applied files s =
            ⟨unmark_dispatch kind id s, [f.filename], false⟩) ∧
        (e f.body = false →
          undo_loop kind e applied files s = ⟨s, [f.filename], true⟩)
  | [], _, _, h, _, _, _ => by simp [undoTarget] at h
  | g :: rest, s, f, h, id, name, hp => by
    rw [undoTarget, List.find?_cons] at h
    cases hg : parse_id_name_from_file g.filename with
    | none =>
      rw [hg] at h
      simp only [undo_loop, hg]
      exact undo_loop_target_some kind e applied rest s f h id name hp
    | some v =>
      obtain ⟨gid, gname⟩ := v
      rw [hg] at h
      by_cases hmem : gid ∈ applied
      · simp only [decide_eq_true hmem] at h
        have hf : g = f := by
          simpa using h
        subst hf
        have hid : gid = id ∧ gname = name := by
          rw [hg] at hp
          exact ⟨congrArg (fun x => (x.getD (([], [])) ).1) hp,
            congrArg (fun x => (x.getD (([], [])) ).2) hp⟩
        obtain ⟨hid1, hid2⟩ := hid
        subst hid1
        constructor
        · intro he
          simp only [undo_loop, hg]
          rw [if_pos hmem, if_pos he]
        · intro he
          simp only [undo_loop, hg]
          rw [if_pos hmem, he]
          simp
      · simp only [decide_eq_false hmem] at h
        simp only [undo_loop, hg]
        rw [if_neg hmem]
        exact undo_loop_target_some kind e applied rest s f h id name hp

theorem undo_loop_executed_len (kind : Str) (e : Str → Bool)
    (applied : List Str) :
    ∀ files s, (undo_loop kind e applied files s).executed.length ≤ 1
  | [], _ => by simp [undo_loop]
  | f :: rest, s => by
    cases hp : parse_id_name_from_file f.filename with
    | none =>
      simp only [undo_loop, hp]
      exact undo_loop_executed_len kind e applied rest s
    | some v =>
      obtain ⟨id, name⟩ := v
      simp only [undo_loop, hp]
      by_cases hmem : id ∈ applied
      · rw [if_pos hmem]
        cases he : e f.body <;> simp
      · rw [if_neg hmem]
        exact undo_loop_executed_len kind e applied rest s

/-- C1: one Undo invocation reverts at most one change-set.  Scanning the
`_down.sql` files in descending filename order, if no entry's id is in
the applied set the run does nothing and returns without error; for the
first entry whose id is applied, a successful execution of its body
deletes exactly that entry's ledger row, records that one execution, and
the run stops. -/
theorem undo_last_single_step (kind : Str) (e : Str → Bool)
    (fs : List SqlFile) (s : DbState) :
    (undo_last kind e fs s).executed.length ≤ 1 ∧
    (undoTarget (applied_ids kind s)
        ((list_sql_files fs (cs "_down.sql")).reverse) = none →
      undo_last kind e fs s = ⟨s, [], false⟩) ∧
    (∀ f, undoTarget (applied_ids kind s)
        ((list_sql_files fs (cs "_down.sql")).reverse) = some f →
      ∀ id name, parse_id_name_from_file f.filename = some (id, name) →
        e f.body = true →
        undo_last kind e fs s =
          ⟨unmark_dispatch kind id s, [f.filename], false⟩) := by
  refine ⟨undo_loop_executed_len kind e (applied_ids kind s) _ s, ?_, ?_⟩
  · intro h
    exact undo_loop_target_none kind e (applied_ids kind s) _ s h
  · intro f hf id name hp he
    exact (undo_loop_target_some kind e (applied_ids kind s) _ s f hf
      id name hp).1 he

theorem undo_last_single_step_witness :
    undo_last (cs "migrations") (fun _ => true)
      [⟨cs "100_a_down.sql", cs "revA"⟩] ⟨[(cs "100", cs "a")], []⟩ =
      ⟨⟨[], []⟩, [cs "100_a_down.sql"], false⟩ := by
  have h := (undo_last_single_step (cs "migrations") (fun _ => true)
      [⟨cs "100_a_down.sql", cs "revA"⟩] ⟨[(cs "100", cs "a")], []⟩).2.2
      ⟨cs "100_a_down.sql", cs "revA"⟩ (by decide) (cs "100") (cs "a")
      (by decide) rfl
  exact h.trans (by decide)

/-! ## Apply-run lemmas (C2, C3) -/

theorem mark_dispatch_ledger (kind id name : Str) (s s' : DbState)
    (h : mark_dispatch kind id name s = Except.ok s') :
    ledgerOf kind s' = ledgerOf kind s ++ [(id, name)] := by
  unfold mark_dispatch at h
  by_cases hk : kind = cs "migrations"
  · rw [if_pos hk] at h
    unfold mark_migration_applied at h
    split at h
    · cases h
    · injection h with h
      subst h
      rw [ledgerOf, ledgerOf, if_pos hk, if_pos hk]
  · rw [if_neg hk] at h
    unfold mark_seed_applied at h
    split at h
    · cases h
    · injection h with h
      subst h
      rw [ledgerOf, ledgerOf, if_neg hk, if_neg hk]

theorem apply_loop_cons_none (kind : Str) (e : Str → Bool)
    (applied : List Str) (f : SqlFile) (rest : List SqlFile) (s : DbState)
    (hp : parse_id_name_from_file f.filename = none) :
    apply_loop kind e applied (f :: rest) s =
      apply_loop kind e applied rest s := by
  simp [apply_loop, hp]

theorem apply_loop_cons_mem (kind : Str) (e : Str → Bool)
    (applied : List Str) (f : SqlFile) (rest : List SqlFile) (s : DbState)
    (id name : Str)
    (hp : parse_id_name_from_file f.filename = some (id, name))
    (hmem : id ∈ applied) :
    apply_loop kind e applied (f :: rest) s =
      apply_loop kind e applied rest s := by
  simp [apply_loop, hp, hmem]

theorem apply_loop_cons_exec_ok (kind : Str) (e : Str → Bool)
    (applied : List Str) (f : SqlFile) (rest : List SqlFile)
    (s s' : DbState) (id name : Str)
    (hp : parse_id_name_from_file f.filename = some (id, name))
    (hmem : id ∉ applied) (he : e f.body = true)
    (hm : mark_dispatch kind id name s = Except.ok s') :
    apply_loop kind e applied (f :: rest) s =
      ⟨(apply_loop kind e applied rest s').state,
        f.filename :: (apply_loop kind e applied rest s').executed,
        (apply_loop kind e applied rest s').err⟩ := by
  simp [apply_loop, hp, hmem, he, hm]

theorem apply_loop_cons_exec_fail (kind : Str) (e : Str → Bool)
    (applied : List Str) (f : SqlFile) (rest : List SqlFile) (s : DbState)
    (id name : Str)
    (hp : parse_id_name_from_file f.filename = some (id, name))
    (hmem : id ∉ applied) (he : e f.body = false) :
    apply_loop kind e applied (f :: rest) s = ⟨s, [f.filename], true⟩ := by
  simp [apply_loop, hp, hmem, he]

theorem apply_loop_cons_mark_fail (kind : Str) (e : Str → Bool)
    (applied : List Str) (f : SqlFile) (rest : List SqlFile) (s : DbState)
    (id name msg : Str)
    (hp : parse_id_name_from_file f.filename = some (id, name))
    (hmem : id ∉ applied) (he : e f.body = true)
    (hm : mark_dispatch kind id name s = Except.error msg) :
    apply_loop kind e applied (f :: rest) s = ⟨s, [f.filename], true⟩ := by
  simp [apply_loop, hp, hmem, he, hm]

theorem apply_loop_ledger_append (kind : Str) (e : Str → Bool)
    (applied : List Str) :
    ∀ files s, ∃ new,
      ledgerOf kind (apply_loop kind e applied files s).state =
        ledgerOf kind s ++ new
  | [], s => ⟨[], by simp [apply_loop]⟩
  | f :: rest, s => by
    cases hp : parse_id_name_from_file f.filename with
    | none =>
      rw [apply_loop_cons_none kind e applied f rest s hp]
      exact apply_loop_ledger_append kind e applied rest s
    | some v =>
      obtain ⟨id, name⟩ := v
      by_cases hmem : id ∈ applied
      · rw [apply_loop_cons_mem kind e applied f rest s id name hp hmem]
        exact apply_loop_ledger_append kind e applied rest s
      · cases he : e f.body with
        | false =>
          rw [apply_loop_cons_exec_fail kind e applied f rest s id name
            hp hmem he]
          exact ⟨[], by simp⟩
        | true =>
          cases hm : mark_dispatch kind id name s with
          | error msg =>
            rw [apply_loop_cons_mark_fail kind e applied f rest s id name
              msg hp hmem he hm]
            exact ⟨[], by simp⟩
          | ok s' =>
            rw [apply_loop_cons_exec_ok kind e applied f rest s s' id name
              hp hmem he hm]
            obtain ⟨new, hnew⟩ :=
              apply_loop_ledger_append kind e applied rest s'
            refine ⟨[(id, name)] ++ new, ?_⟩
            simp only
            rw [hnew, mark_dispatch_ledger kind id name s s' hm,
              List.append_assoc]

theorem apply_loop_applied_mono (kind : Str) (e : Str → Bool)
    (applied : List Str) (files : List SqlFile) (s : DbState) :
    ∀ id, id ∈ applied_ids kind s →
      id ∈ applied_ids kind (apply_loop kind e applied files s).state := by
  obtain ⟨new, hnew⟩ := apply_loop_ledger_append kind e applied files s
  intro id hid
  unfold applied_ids at hid ⊢
  rw [hnew, List.map_append]
  exact List.mem_append_left _ hid

theorem apply_loop_success_covered (kind : Str) (e : Str → Bool)
    (applied : List Str) :
    ∀ files s, (apply_loop kind e applied files s).err = false →
      ∀ f ∈ files, ∀ id name,
        parse_id_name_from_file f.filename = some (id, name) →
        id ∈ applied ∨
          id ∈ applied_ids kind (apply_loop kind e applied files s).state
  | [], _, _, f, hf, _, _, _ => absurd hf (List.not_mem_nil f)
  | g :: rest, s, herr, f, hf, id, name, hp => by
    rcases List.mem_cons.mp hf with hfg | hfr
    · subst hfg
      by_cases hmem : id ∈ applied
      · exact Or.inl hmem
      · right
        cases he : e f.body with
        | false =>
          rw [apply_loop_cons_exec_fail kind e applied f rest s id name
            hp hmem he] at herr
          cases herr
        | true =>
          cases hm : mark_dispatch kind id name s with
          | error msg =>
            rw [apply_loop_cons_mark_fail kind e applied f rest s id name
              msg hp hmem he hm] at herr
            cases herr
          | ok s' =>
            rw [apply_loop_cons_exec_ok kind e applied f rest s s' id name
              hp hmem he hm]
            have hmem' : id ∈ applied_ids kind s' := by
              unfold applied_ids
              rw [mark_dispatch_ledger kind id name s s' hm,
                List.map_append]
              exact List.mem_append_right _ (by simp)
            exact apply_loop_applied_mono kind e applied rest s' id hmem'
    · cases hg : parse_id_name_from_file g.filename with
      | none =>
        rw [apply_loop_cons_none kind e applied g rest s hg] at herr ⊢
        exact apply_loop_success_covered kind e applied rest s herr f hfr
          id name hp
      | some v =>
        obtain ⟨gid, gname⟩ := v
        by_cases hmem : gid ∈ applied
        · rw [apply_loop_cons_mem kind e applied g rest s gid gname hg
            hmem] at herr ⊢
          exact apply_loop_success_covered kind e applied rest s herr f hfr
            id name hp
        · cases he : e g.body with
          | false =>
            rw [apply_loop_cons_exec_fail kind e applied g rest s gid gname
              hg hmem he] at herr
            cases herr
          | true =>
            cases hm : mark_dispatch kind gid gname s with
            | error msg =>
              rw [apply_loop_cons_mark_fail kind e applied g rest s gid
                gname msg hg hmem he hm] at herr
              cases herr
            | ok s' =>
              rw [apply_loop_cons_exec_ok kind e applied g rest s s' gid
                gname hg hmem he hm] at herr ⊢
              exact apply_loop_success_covered kind e applied rest s' herr
                f hfr id name hp

theorem apply_loop_all_applied (kind : Str) (e : Str → Bool)
    (applied : List Str) :
    ∀ files s,
      (∀ f ∈ files, ∀ id name,
        parse_id_name_from_file f.filename = some (id, name) →
        id ∈ applied) →
      apply_loop kind e applied files s = ⟨s, [], false⟩
  | [], _, _ => rfl
  | g :: rest, s, h => by
    cases hg : parse_id_name_from_file g.filename with
    | none =>
      simp only [apply_loop, hg]
      exact apply_loop_all_applied kind e applied rest s
        (fun f hf => h f (List.mem_cons_of_mem g hf))
    | some v =>
      obtain ⟨gid, gname⟩ := v
      have hmem : gid ∈ applied :=
        h g (List.mem_cons_self g rest) gid gname hg
      simp only [apply_loop, hg, if_pos hmem]
      exact apply_loop_all_applied kind e applied rest s
        (fun f hf => h f (List.mem_cons_of_mem g hf))

/-- C2 counterexample to the unconditional statement: with a single
forward file whose body always fails, the first Apply run aborts with an
error, and the second run again executes that body and again errors —
the second run neither executes zero bodies nor completes without
error. -/
theorem apply_idempotent_counterexample :
    ((run_pending (cs "migrations") (fun _ => false)
        [⟨cs "100_a_up.sql", cs "boom"⟩]
        (run_pending (cs "migrations") (fun _ => false)
          [⟨cs "100_a_up.sql", cs "boom"⟩] ⟨[], []⟩).state).executed =
      [cs "100_a_up.sql"]) ∧
    ((run_pending (cs "migrations") (fun _ => false)
        [⟨cs "100_a_up.sql", cs "boom"⟩]
        (run_pending (cs "migrations") (fun _ => false)
          [⟨cs "100_a_up.sql", cs "boom"⟩] ⟨[], []⟩).state).err = true) := by
  refine ⟨by decide, by decide⟩

/-- C2 amended: the Apply run is idempotent provided the first run
completes without error — re-running Apply with the directory unchanged
on the state the first successful run produced executes zero change-set
bodies, adds zero ledger rows, changes nothing and produces no error,
because every file's id is then already in the applied set. -/
theorem apply_idempotent_amended (kind : Str) (e : Str → Bool)
    (fs : List SqlFile) (s : DbState)
    (h : (run_pending kind e fs s).err = false) :
    run_pending kind e fs (run_pending kind e fs s).state =
      ⟨(run_pending kind e fs s).state, [], false⟩ := by
  unfold run_pending at h ⊢
  apply apply_loop_all_applied
  intro f hf id name hp
  have hcov := apply_loop_success_covered kind e (applied_ids kind s)
    (list_sql_files fs (cs "_up.sql")) s h f hf id name hp
  rcases hcov with hcov | hcov
  · exact apply_loop_applied_mono kind e (applied_ids kind s)
      (list_sql_files fs (cs "_up.sql")) s id hcov
  · exact hcov

theorem apply_idempotent_amended_witness :
    run_pending (cs "migrations") (fun _ => true)
      [⟨cs "100_a_up.sql", cs "A"⟩]
      (run_pending (cs "migrations") (fun _ => true)
        [⟨cs "100_a_up.sql", cs "A"⟩] ⟨[], []⟩).state =
      ⟨(run_pending (cs "migrations") (fun _ => true)
        [⟨cs "100_a_up.sql", cs "A"⟩] ⟨[], []⟩).state, [], false⟩ :=
  apply_idempotent_amended (cs "migrations") (fun _ => true)
    [⟨cs "100_a_up.sql", cs "A"⟩] ⟨[], []⟩ (by decide)

/-! ## Ordering and abort-on-failure (C3) -/

theorem apply_loop_executed_sublist (kind : Str) (e : Str → Bool)
    (applied : List Str) :
    ∀ files s, (apply_loop kind e applied files s).executed.Sublist
      (files.map (fun f => f.filename))
  | [], _ => List.nil_sublist _
  | f :: rest, s => by
    cases hp : parse_id_name_from_file f.filename with
    | none =>
      rw [apply_loop_cons_none kind e applied f rest s hp]
      exact (apply_loop_executed_sublist kind e applied rest s).cons _
    | some v =>
      obtain ⟨id, name⟩ := v
      by_cases hmem : id ∈ applied
      · rw [apply_loop_cons_mem kind e applied f rest s id name hp hmem]
        exact (apply_loop_executed_sublist kind e applied rest s).cons _
      · cases he : e f.body with
        | false =>
          rw [apply_loop_cons_exec_fail kind e applied f rest s id name
            hp hmem he]
          exact (List.nil_sublist _).cons₂ _
        | true =>
          cases hm : mark_dispatch kind id name s with
          | error msg =>
            rw [apply_loop_cons_mark_fail kind e applied f rest s id name
              msg hp hmem he hm]
            exact (List.nil_sublist _).cons₂ _
          | ok s' =>
            rw [apply_loop_cons_exec_ok kind e applied f rest s s' id name
              hp hmem he hm]
            exact (apply_loop_executed_sublist kind e applied rest s').cons₂ _

theorem apply_loop_err_decomp (kind : Str) (e : Str → Bool)
    (applied : List Str) :
    ∀ files s, (files.map (fun f => f.filename)).Nodup →
      (apply_loop kind e applied files s).err = true →
      ∃ l₁ f l₂, files = l₁ ++ f :: l₂ ∧
        (apply_loop kind e applied files s).executed.getLast? =
          some f.filename ∧
        (apply_loop kind e applied files s).executed.Sublist
          ((l₁ ++ [f]).map (fun g => g.filename)) ∧
        ∀ g ∈ l₁, ∀ id name,
          parse_id_name_from_file g.filename = some (id, name) →
          g.filename ∈ (apply_loop kind e applied files s).executed →
          id ∈ applied_ids kind (apply_loop kind e applied files s).state
  | [], _, _, herr => by cases herr
  | g :: rest, s, hnd, herr => by
    rw [List.map_cons] at hnd
    have hgnot : g.filename ∉ rest.map (fun f => f.filename) :=
      (List.nodup_cons.mp hnd).1
    have hndrest : (rest.map (fun f => f.filename)).Nodup :=
      (List.nodup_cons.mp hnd).2
    have hgskip : ∀ s₀ (id name : Str),
        parse_id_name_from_file g.filename = some (id, name) →
        g.filename ∈ (apply_loop kind e applied rest s₀).executed →
        id ∈ applied_ids kind (apply_loop kind e applied rest s₀).state :=
      fun s₀ _ _ _ hxex =>
        absurd
          ((apply_loop_executed_sublist kind e applied rest s₀).subset hxex)
          hgnot
    have step :
        ∀ s₀, apply_loop kind e applied (g :: rest) s =
            apply_loop kind e applied rest s₀ →
          ∃ l₁ f l₂, g :: rest = l₁ ++ f :: l₂ ∧
            (apply_loop kind e applied (g :: rest) s).executed.getLast? =
              some f.filename ∧
            (apply_loop kind e applied (g :: rest) s).executed.Sublist
              ((l₁ ++ [f]).map (fun h => h.filename)) ∧
            ∀ x ∈ l₁, ∀ id name,
              parse_id_name_from_file x.filename = some (id, name) →
              x.filename ∈
                (apply_loop kind e applied (g :: rest) s).executed →
              id ∈ applied_ids kind
                (apply_loop kind e applied (g :: rest) s).state := by
      intro s₀ heq
      rw [heq] at herr ⊢
      obtain ⟨l₁, f, l₂, hsplit, hlast, hsub, hmk⟩ :=
        apply_loop_err_decomp kind e applied rest s₀ hndrest herr
      refine ⟨g :: l₁, f, l₂, by rw [hsplit, List.cons_append], hlast,
        hsub.cons _, ?_⟩
      intro x hx id name hpx hxex
      rcases List.mem_cons.mp hx with rfl | hxl
      · exact hgskip s₀ id name hpx hxex
      · exact hmk x hxl id name hpx hxex
    cases hp : parse_id_name_from_file g.filename with
    | none =>
      exact step s (apply_loop_cons_none kind e applied g rest s hp)
    | some v =>
      obtain ⟨pid, pname⟩ := v
      by_cases hmem : pid ∈ applied
      · exact step s (apply_loop_cons_mem kind e applied g rest s pid pname
          hp hmem)
      · cases he : e g.body with
        | false =>
          rw [apply_loop_cons_exec_fail kind e applied g rest s pid pname
            hp hmem he]
          exact ⟨[], g, rest, rfl, rfl, (List.nil_sublist _).cons₂ _,
            fun x hx => absurd hx (List.not_mem_nil x)⟩
        | true =>
          cases hm : mark_dispatch kind pid pname s with
          | error msg =>
            rw [apply_loop_cons_mark_fail kind e applied g rest s pid pname
              msg hp hmem he hm]
            exact ⟨[], g, rest, rfl, rfl, (List.nil_sublist _).cons₂ _,
              fun x hx => absurd hx (List.not_mem_nil x)⟩
          | ok s' =>
            rw [apply_loop_cons_exec_ok kind e applied g rest s s' pid pname
              hp hmem he hm] at herr ⊢
            simp only at herr
            obtain ⟨l₁, f, l₂, hsplit, hlast, hsub, hmk⟩ :=
              apply_loop_err_decomp kind e applied rest s' hndrest herr
            refine ⟨g :: l₁, f, l₂, by rw [hsplit, List.cons_append],
              ?_, ?_, ?_⟩
            · simp only
              cases hex : (apply_loop kind e applied rest s').executed with
              | nil => rw [hex] at hlast; cases hlast
              | cons x xs =>
                rw [hex] at hlast
                rw [List.getLast?_cons_cons]
                exact hlast
            · simp only [List.cons_append, List.map_cons]
              exact hsub.cons₂ _
            · simp only
              intro x hx id name hpx hxex
              rcases List.mem_cons.mp hx with rfl | hxl
              · rw [hp] at hpx
                injection hpx with hpx
                have hid : pid = id := congrArg Prod.fst hpx
                subst hid
                have hmem' : pid ∈ applied_ids kind s' := by
                  unfold applied_ids
                  rw [mark_dispatch_ledger kind pid pname s s' hm,
                    List.map_append]
                  exact List.mem_append_right _ (by simp)
                exact apply_loop_applied_mono kind e applied rest s' pid
                  hmem'
              · have hxrest : x ∈ rest := by
                  rw [hsplit]
                  exact List.mem_append_left _ hxl
                have hxne : x.filename ≠ g.filename := by
                  intro hEq
                  exact hgnot (hEq ▸ List.mem_map_of_mem _ hxrest)
                rcases List.mem_cons.mp hxex with hxg | hxex'
                · exact absurd hxg hxne
                · exact hmk x hxl id name hpx hxex'

theorem list_sql_files_filenames_nodup (fs : List SqlFile) (sfx : Str)
    (h : (fs.map (fun f => f.filename)).Nodup) :
    ((list_sql_files fs sfx).map (fun f => f.filename)).Nodup := by
  have hsub :
      ((fs.filter (fun f => sfx.isSuffixOf f.filename)).map
          (fun f => f.filename)).Sublist
        (fs.map (fun f => f.filename)) :=
    (List.filter_sublist fs).map _
  have h1 := h.sublist hsub
  have hperm :=
    (sortFiles_perm (fs.filter (fun f => sfx.isSuffixOf f.filename))).map
      (fun f => f.filename)
  exact (hperm.nodup_iff).mpr h1

/-- C3: the Apply run executes and marks pending change-sets strictly in
ascending filename order; when it aborts with an error, the failing entry
is the last one executed, no file listed after it is ever attempted, and
every entry executed (and hence marked) before the failing one still has
its id in the final applied set; and the ledger of the kind only grows —
rows applied before the run are all still present in the final state (no
rollback of partial progress). -/
theorem apply_ordering_abort (kind : Str) (e : Str → Bool)
    (fs : List SqlFile) (s : DbState)
    (hnd : (fs.map (fun f => f.filename)).Nodup) :
    (run_pending kind e fs s).executed.Pairwise
      (fun a b => charListLe a b = true ∧ a ≠ b) ∧
    ((run_pending kind e fs s).err = true →
      ∃ l₁ f l₂, list_sql_files fs (cs "_up.sql") = l₁ ++ f :: l₂ ∧
        (run_pending kind e fs s).executed.getLast? = some f.filename ∧
        (∀ g ∈ l₂, g.filename ∉ (run_pending kind e fs s).executed) ∧
        ∀ g ∈ l₁, ∀ id name,
          parse_id_name_from_file g.filename = some (id, name) →
          g.filename ∈ (run_pending kind e fs s).executed →
          id ∈ applied_ids kind (run_pending kind e fs s).state) ∧
    (∃ new, ledgerOf kind (run_pending kind e fs s).state =
      ledgerOf kind s ++ new) := by
  have hnodup := list_sql_files_filenames_nodup fs (cs "_up.sql") hnd
  have hpair :
      ((list_sql_files fs (cs "_up.sql")).map
          (fun f => f.filename)).Pairwise
        (fun a b => charListLe a b = true) :=
    List.pairwise_map.mpr (sortFiles_pairwise _)
  have hsub := apply_loop_executed_sublist kind e (applied_ids kind s)
    (list_sql_files fs (cs "_up.sql")) s
  refine ⟨?_, ?_, apply_loop_ledger_append kind e (applied_ids kind s)
    (list_sql_files fs (cs "_up.sql")) s⟩
  · exact List.Pairwise.sublist hsub (hpair.and hnodup)
  · intro herr
    obtain ⟨l₁, f, l₂, hsplit, hlast, hsub', hmk⟩ :=
      apply_loop_err_decomp kind e (applied_ids kind s)
        (list_sql_files fs (cs "_up.sql")) s hnodup herr
    refine ⟨l₁, f, l₂, hsplit, hlast, ?_, hmk⟩
    intro g hg hgmem
    have hgin : g.filename ∈ (l₁ ++ [f]).map (fun h => h.filename) :=
      hsub'.subset hgmem
    have hmapeq :
        ((list_sql_files fs (cs "_up.sql")).map (fun h => h.filename)) =
          ((l₁ ++ [f]).map (fun h => h.filename)) ++
            (l₂.map (fun h => h.filename)) := by
      rw [hsplit, ← List.map_append, List.append_assoc]
      simp
    rw [hmapeq] at hnodup
    have hdisj := List.disjoint_of_nodup_append hnodup
    exact hdisj hgin (List.mem_map_of_mem _ hg)

theorem apply_ordering_abort_witness :
    (run_pending (cs "migrations") (fun b => !(b == cs "B2"))
        [⟨cs "100_a_up.sql", cs "B1"⟩, ⟨cs "200_b_up.sql", cs "B2"⟩,
          ⟨cs "300_c_up.sql", cs "B3"⟩] ⟨[], []⟩).executed.Pairwise
      (fun a b => charListLe a b = true ∧ a ≠ b) :=
  (apply_ordering_abort (cs "migrations") (fun b => !(b == cs "B2"))
    [⟨cs "100_a_up.sql", cs "B1"⟩, ⟨cs "200_b_up.sql", cs "B2"⟩,
      ⟨cs "300_c_up.sql", cs "B3"⟩] ⟨[], []⟩ (by decide)).1

